import Mathlib

/-!
Shallow embedding of `src/generate_sample_photos.py`.

Conventions used throughout:
* Byte sizes and pixel dimensions are natural numbers (`os.path.getsize`
  returns an integer number of bytes).
* The Python float comparisons against a target `t` are translated to exact
  integer inequalities: `abs(fs - t) / t < 0.1` becomes `10 * ndist fs t < t`,
  `fs < t * 0.9` becomes `10 * fs < 9 * t`, `fs <= t * 1.1` becomes
  `10 * fs <= 11 * t`, and `abs(fs - t) / t < 0.15` becomes
  `20 * ndist fs t < 3 * t`.  For byte counts below 2^53 these agree with the
  double-precision evaluation away from ulp boundaries, and at the exact
  boundaries used in the development the two agree as well.
* `int(w * math.sqrt(t / fs))` is modelled as `Nat.sqrt (w * w * t / fs)`:
  for nonnegative reals, taking the floor commutes with the square root of a
  floored quotient, so this is the exact integer value the Python computes
  (away from float rounding).
* The image painting uses the global random generator; a fresh painting is
  modelled by incrementing an image index.  An encoder oracle
  `enc : imageIndex -> width -> height -> quality -> bytes` abstracts both the
  random content and the codec; re-encoding the same image at a different
  quality keeps the image index.
-/

namespace RapidPhoto

/-- Absolute difference on naturals, `abs (a - b)` of the Python ints. -/
def ndist (a b : ℕ) : ℕ := max a b - min a b

/-- Binary search for the integer square root of `n` on the interval
`[lo, hi)`, with explicit structural fuel so that the kernel can evaluate it
on concrete inputs.  Invariant: `lo * lo ≤ n < hi * hi`. -/
def isqrtGo (n : ℕ) : ℕ → ℕ → ℕ → ℕ
  | 0, lo, _ => lo
  | fuel + 1, lo, hi =>
    if hi ≤ lo + 1 then lo
    else
      let mid := (lo + hi) / 2
      if mid * mid ≤ n then isqrtGo n fuel mid hi
      else isqrtGo n fuel lo mid

/-- Executable integer square root; proved equal to `Nat.sqrt` below. -/
def isqrt (n : ℕ) : ℕ := isqrtGo n (n + 1) 0 (n + 1)

theorem isqrtGo_spec (n : ℕ) : ∀ fuel lo hi, lo * lo ≤ n → n < hi * hi →
    hi - lo ≤ fuel + 1 →
    isqrtGo n fuel lo hi * isqrtGo n fuel lo hi ≤ n ∧
      n < (isqrtGo n fuel lo hi + 1) * (isqrtGo n fuel lo hi + 1) := by
  intro fuel
  induction fuel with
  | zero =>
    intro lo hi h1 h2 h3
    simp only [isqrtGo]
    have hlohi : lo < hi := by nlinarith
    have : hi ≤ lo + 1 := by omega
    exact ⟨h1, lt_of_lt_of_le h2 (by nlinarith)⟩
  | succ fuel ih =>
    intro lo hi h1 h2 h3
    simp only [isqrtGo]
    by_cases hc : hi ≤ lo + 1
    · simp only [hc, if_true]
      exact ⟨h1, lt_of_lt_of_le h2 (by nlinarith)⟩
    · simp only [hc, if_false]
      have hlohi : lo < hi := by nlinarith
      have hlo2 : lo + 2 ≤ hi := by omega
      have hmidlo : lo < (lo + hi) / 2 := by omega
      have hmidhi : (lo + hi) / 2 < hi := by omega
      by_cases hm : ((lo + hi) / 2) * ((lo + hi) / 2) ≤ n
      · simp only [hm, if_true]
        exact ih _ _ hm h2 (by omega)
      · simp only [hm, if_false]
        exact ih _ _ h1 (by omega) (by omega)

theorem isqrt_eq_sqrt (n : ℕ) : isqrt n = Nat.sqrt n := by
  obtain ⟨h1, h2⟩ := isqrtGo_spec n (n + 1) 0 (n + 1) (by simp) (by nlinarith) (by omega)
  have ha : isqrt n ≤ Nat.sqrt n := Nat.le_sqrt.mpr h1
  have hb : Nat.sqrt n < isqrt n + 1 := Nat.sqrt_lt.mpr h2
  omega

/-- Model of `int(w * math.sqrt(t / fs))`: the new dimension after scaling
`w` by `sqrt (t / fs)`.  For nonnegative reals, flooring commutes with the
nested square root and quotient, so this is the integer the Python
computes. -/
def scaleDim (w t fs : ℕ) : ℕ := isqrt (w * w * t / fs)

/-- Python `range(start, stop, -1)`: `start, start-1, ..., stop+1`. -/
def descRange (start stop : ℕ) : List ℕ :=
  (List.range' (stop + 1) (start - stop)).reverse

/-- The outer JPEG / WEBP quality sweep `range(95, 60, -5)`. -/
def sweepQualities : List ℕ := [95, 90, 85, 80, 75, 70, 65]

/-- One outer-loop JPEG encode: the quality used, the dimensions at which the
image was painted, and the resulting byte size. -/
structure TraceEntry where
  quality : ℕ
  width : ℕ
  height : ℕ
  size : ℕ
deriving DecidableEq, Repr

/-- Which `return` of the JPEG branch produced the result: the outer
within-10% accept, the fine-grained quality-decrement accept, or the final
fixed-quality-85 fallback encode. -/
inductive JpegOutcome where
  | outerAccept (size : ℕ)
  | fineAccept (size : ℕ)
  | fallback (size : ℕ)
deriving DecidableEq, Repr

/-- Result of the JPEG branch: the outcome, the trace of outer-loop encodes,
and whether the `output_path + '.tmp'` file is still on disk afterwards. -/
structure JpegRun where
  outcome : JpegOutcome
  trace : List TraceEntry
  tmpLeft : Bool
deriving DecidableEq, Repr

/-- The fine-grained quality decrement search
(`for q in range(quality - 1, max(60, quality - 6), -1)`), re-encoding the
same image.  Returns the accepted size (if any) together with the last
measured `file_size`, which the caller uses for the downscale factor. -/
def fineSearch (encI : ℕ → ℕ) (t : ℕ) : List ℕ → ℕ → Option ℕ × ℕ
  | [], last => (none, last)
  | q :: qs, _ =>
    let fs := encI q
    if 10 * fs ≤ 11 * t then (some fs, fs) else fineSearch encI t qs fs

/-- The JPEG quality sweep `for quality in range(95, 60, -5)`.  State: the
remaining quality levels, current `base_width` / `base_height`, the index of
the next freshly painted image, and whether a `.tmp` file has been written
and not yet renamed away. -/
def jpegSweep (enc : ℕ → ℕ → ℕ → ℕ → ℕ) (t : ℕ) :
    List ℕ → ℕ → ℕ → ℕ → Bool → JpegRun
  | [], w, h, img, tmp => ⟨.fallback (enc img w h 85), [], tmp⟩
  | q :: qs, w, h, img, _ =>
    let fs := enc img w h q
    let e : TraceEntry := ⟨q, w, h, fs⟩
    if 10 * ndist fs t < t then
      ⟨.outerAccept fs, [e], false⟩
    else if 10 * fs < 9 * t then
      let r := jpegSweep enc t qs (scaleDim w t fs) (scaleDim h t fs) (img + 1) true
      ⟨r.outcome, e :: r.trace, r.tmpLeft⟩
    else if t < fs then
      match fineSearch (fun q2 => enc img w h q2) t (descRange (q - 1) (max 60 (q - 6))) fs with
      | (some s, _) => ⟨.fineAccept s, [e], false⟩
      | (none, last) =>
        let r := jpegSweep enc t qs (scaleDim w t last) (scaleDim h t last) (img + 1) true
        ⟨r.outcome, e :: r.trace, r.tmpLeft⟩
    else
      let r := jpegSweep enc t qs w h (img + 1) true
      ⟨r.outcome, e :: r.trace, r.tmpLeft⟩

/-- The JPEG branch of `generate_image_with_target_size`: sweep from quality
95 at 2000 x 2000. -/
def jpegGen (enc : ℕ → ℕ → ℕ → ℕ → ℕ) (t : ℕ) : JpegRun :=
  jpegSweep enc t sweepQualities 2000 2000 0 false

/-- Result of the PNG branch: the list of (width, height) encodes performed in
order, and the byte size finally returned. -/
structure PngRun where
  encodes : List (ℕ × ℕ)
  size : ℕ
deriving DecidableEq, Repr

/-- The PNG branch of `generate_image_with_target_size`: one encode of the
painted 1500 x 1500 image; if its size is strictly below the target, resize by
`sqrt (t / fs)` (image index 1 is the resized image) and encode exactly once
more; return the size of the last encode.  No tolerance check anywhere. -/
def pngGen (enc : ℕ → ℕ → ℕ → ℕ) (t : ℕ) : PngRun :=
  let fs := enc 0 1500 1500
  if fs < t then
    let nw := scaleDim 1500 t fs
    let nh := scaleDim 1500 t fs
    ⟨[(1500, 1500), (nw, nh)], enc 1 nw nh⟩
  else
    ⟨[(1500, 1500)], fs⟩

/-- Which `return` of the WEBP branch produced the result: an in-tolerance
accept at some quality, or the final `os.path.getsize` of the last written
encode after the sweep was exhausted. -/
inductive WebpResult where
  | accepted (quality size : ℕ)
  | fallback (size : ℕ)
deriving DecidableEq, Repr

/-- The WEBP 15% acceptance test `abs(file_size - t) / t < 0.15` at quality
`q`, for a fixed painted 2000 x 2000 image with encoder `enc`. -/
def webpHit (enc : ℕ → ℕ) (t q : ℕ) : Bool :=
  20 * ndist (enc q) t < 3 * t

/-- The WEBP quality sweep: encode at each quality in turn (overwriting the
output file), returning on the first size within 15% of the target; the
second argument carries the size of the last written encode. -/
def webpSweep (enc : ℕ → ℕ) (t : ℕ) : List ℕ → ℕ → WebpResult
  | [], last => .fallback last
  | q :: qs, _ =>
    let fs := enc q
    if 20 * ndist fs t < 3 * t then .accepted q fs
    else webpSweep enc t qs fs

/-- The WEBP branch of `generate_image_with_target_size`: one painted
2000 x 2000 image, sweep `range(95, 60, -5)`. -/
def webpGen (enc : ℕ → ℕ) (t : ℕ) : WebpResult :=
  webpSweep enc t sweepQualities 0

/-- The three supported formats. -/
inductive Fmt where
  | jpeg
  | png
  | webp
deriving DecidableEq, Repr

/-- `ext_map = {'JPEG': 'jpg', 'PNG': 'png', 'WEBP': 'webp'}`. -/
def fmtExt : Fmt → String
  | .jpeg => "jpg"
  | .png => "png"
  | .webp => "webp"

/-- Python `f"{n:03d}"` for nonnegative `n`. -/
def pad3 (n : ℕ) : String :=
  if n < 10 then "00" ++ toString n
  else if n < 100 then "0" ++ toString n
  else toString n

/-- `f"sample_photo_{i+1:03d}.{ext}"` for request index `i`. -/
def photoFileName (i : ℕ) (f : Fmt) : String :=
  "sample_photo_" ++ pad3 (i + 1) ++ "." ++ fmtExt f

/-- `['JPEG'] * 70 + ['PNG'] * 20 + ['WEBP'] * 10`, before the shuffle. -/
def baseFormats : List Fmt :=
  List.replicate 70 .jpeg ++ List.replicate 20 .png ++ List.replicate 10 .webp

/-- The final printed summary.  `variance` stands for the square of the
printed `np.std` value (the standard deviation itself is irrational in
general; the square determines it). -/
structure Summary where
  count : ℕ
  total : ℕ
  meanSize : ℚ
  minSize : ℕ
  maxSize : ℕ
  variance : ℚ
deriving DecidableEq, Repr

/-- The summary block.  Python's `min` / `max` raise `ValueError` on an empty
list, so the full summary exists exactly when at least one file was
produced (`np.mean([])` is `nan` but does not raise). -/
def mkSummary (l : List ℕ) : Option Summary :=
  match l.min?, l.max? with
  | some mn, some mx =>
    let n : ℚ := l.length
    let mu : ℚ := (l.sum : ℚ) / n
    some ⟨l.length, l.sum, mu, mn, mx, ((l.map (fun x => ((x : ℚ) - mu) ^ 2)).sum) / n⟩
  | _, _ => none

/-- State threaded through the per-request loop of `generate_sample_photos`:
the collected `file_sizes`, the files present in the output directory
(identified by request index and format, which determine the file name via
`photoFileName`), and the indices attempted so far, in order. -/
structure RunState where
  fileSizes : List ℕ
  files : List (ℕ × Fmt)
  attempted : List ℕ
deriving DecidableEq, Repr

/-- Abstract outcome of one `generate_image_with_target_size` call: either a
written file of some size, or a raised exception (in which case the handler
removes any partially written output file). -/
inductive GenOutcome where
  | ok (size : ℕ)
  | err
deriving DecidableEq, Repr

/-- One iteration of the request loop at index `i`.  `formats[i]` is read
OUTSIDE the try block: an out-of-range index is an uncaught `IndexError`,
modelled as `none`.  Inside the try, a success appends the size and the file;
an exception leaves the sizes unchanged and removes the output file if it
exists. -/
def stepRequest (formats : List Fmt) (gen : ℕ → GenOutcome) (st : RunState) (i : ℕ) :
    Option RunState :=
  match formats.get? i with
  | none => none
  | some f =>
    match gen i with
    | .ok s => some ⟨st.fileSizes ++ [s], st.files ++ [(i, f)], st.attempted ++ [i]⟩
    | .err => some ⟨st.fileSizes, st.files.filter (fun p => !(p == (i, f))), st.attempted ++ [i]⟩

/-- The request loop `for i in range(num_photos)` over a list of indices; an
uncaught `IndexError` aborts the loop, carrying the state reached so far. -/
def runBatchAux (formats : List Fmt) (gen : ℕ → GenOutcome) :
    List ℕ → RunState → Except RunState RunState
  | [], st => .ok st
  | i :: is, st =>
    match stepRequest formats gen st i with
    | none => .error st
    | some st2 => runBatchAux formats gen is st2

/-- How a run of `generate_sample_photos` ends: an uncaught `IndexError` in
the loop (no summary), a `ValueError` from `min([])` in the summary block
(zero successes), or a normal completion with the full summary. -/
inductive RunResult where
  | indexError (st : RunState)
  | summaryError (st : RunState)
  | completed (st : RunState) (s : Summary)
deriving DecidableEq, Repr

/-- `generate_sample_photos`, after the size sampling: run the request loop
over `range numPhotos` against the (shuffled) format list and the generator
oracle, then print the summary. -/
def generate_sample_photos (formats : List Fmt) (gen : ℕ → GenOutcome)
    (numPhotos : ℕ) : RunResult :=
  match runBatchAux formats gen (List.range numPhotos) ⟨[], [], []⟩ with
  | .error st => .indexError st
  | .ok st =>
    match mkSummary st.fileSizes with
    | none => .summaryError st
    | some s => .completed st s

/-- `np.mean` of a rational list. -/
def listMeanQ (l : List ℚ) : ℚ := l.sum / (l.length : ℚ)

/-- `np.clip(x, 0.5 * 1024 * 1024, 4 * 1024 * 1024)`. -/
def clampSize (x : ℚ) : ℚ := min 4194304 (max 524288 x)

/-- The size pipeline of `generate_sample_photos` on the sampled values:
clamp each into [0.5 MiB, 4 MiB], then rescale the whole set by
`avg_size_bytes / mean(clamped)`. -/
def rescaleSizes (raw : List ℚ) (avgBytes : ℚ) : List ℚ :=
  let clamped := raw.map clampSize
  clamped.map (fun s => s * (avgBytes / listMeanQ clamped))

/-! ## Structural lemmas about the JPEG sweep -/

theorem jpegSweep_trace_head (enc : ℕ → ℕ → ℕ → ℕ → ℕ) (t q : ℕ) (qs : List ℕ)
    (w h img : ℕ) (tmp : Bool) :
    (jpegSweep enc t (q :: qs) w h img tmp).trace.head? =
      some ⟨q, w, h, enc img w h q⟩ := by
  simp only [jpegSweep]
  split
  · rfl
  · split
    · rfl
    · split
      · split <;> rfl
      · rfl

theorem jpegSweep_trace_nil (enc : ℕ → ℕ → ℕ → ℕ → ℕ) (t : ℕ)
    (w h img : ℕ) (tmp : Bool) :
    (jpegSweep enc t [] w h img tmp).trace = [] := rfl

/-- In the quality sweep, an encode whose size falls strictly below 90% of the
target is followed (when the sweep goes on at all) by an encode at the next
lower quality level of the sweep list, at dimensions scaled by
`sqrt (target / actual)`. -/
theorem jpegSweep_below90_continues (enc : ℕ → ℕ → ℕ → ℕ → ℕ) (t : ℕ) :
    ∀ (qs : List ℕ) (w h img : ℕ) (tmp : Bool),
      List.Chain' (fun a b => a = b + 5) qs →
      ∀ k e1 e2,
        (jpegSweep enc t qs w h img tmp).trace.get? k = some e1 →
        (jpegSweep enc t qs w h img tmp).trace.get? (k + 1) = some e2 →
        10 * e1.size < 9 * t →
        e1.quality = e2.quality + 5 ∧
          e2.width = scaleDim e1.width t e1.size ∧
          e2.height = scaleDim e1.height t e1.size := by
  intro qs
  induction qs with
  | nil =>
    intro w h img tmp _ k e1 e2 h1 h2 h3
    simp [jpegSweep_trace_nil] at h1
  | cons q qs ih =>
    intro w h img tmp hch k e1 e2 h1 h2 h3
    revert h1 h2
    simp only [jpegSweep]
    split
    · -- outer accept, singleton trace: no successor entry
      intro h1 h2
      cases k with
      | zero => simp at h2
      | succ k => simp at h1
    · split
      · -- below 90%: dimensions rescaled, sweep continues with qs
        intro h1 h2
        cases k with
        | zero =>
          simp only [List.get?] at h1 h2
          cases h1
          cases qs with
          | nil => simp [jpegSweep_trace_nil] at h2
          | cons q2 qs2 =>
            have hh := jpegSweep_trace_head enc t q2 qs2
              (scaleDim w t (enc img w h q)) (scaleDim h t (enc img w h q)) (img + 1) true
            rw [← List.get?_zero, h2] at hh
            cases hh
            have hq : q = q2 + 5 := (List.chain'_cons.mp hch).1
            exact ⟨hq, rfl, rfl⟩
        | succ k =>
          simp only [List.get?] at h1 h2
          exact ih _ _ _ _ (List.Chain'.tail hch) k e1 e2 h1 h2 h3
      · split
        · -- oversized: fine search
          split
          · -- fine search accepted, singleton trace: no successor entry
            intro h1 h2
            cases k with
            | zero => simp at h2
            | succ k => simp at h1
          · -- fine search failed: dimensions rescaled downward, sweep continues
            intro h1 h2
            cases k with
            | zero =>
              simp only [List.get?] at h1
              cases h1
              -- the first entry has size ≥ 90% of target: contradiction
              simp only [TraceEntry.size] at h3
              omega
            | succ k =>
              simp only [List.get?] at h1 h2
              exact ih _ _ _ _ (List.Chain'.tail hch) k e1 e2 h1 h2 h3
        · -- size exactly at the 90% boundary: same dimensions, next quality
          intro h1 h2
          cases k with
          | zero =>
            simp only [List.get?] at h1
            cases h1
            simp only [TraceEntry.size] at h3
            omega
          | succ k =>
            simp only [List.get?] at h1 h2
            exact ih _ _ _ _ (List.Chain'.tail hch) k e1 e2 h1 h2 h3

/-- A size accepted by the fine-grained quality decrement search satisfies
only the upper bound `file_size <= target * 1.1`. -/
theorem fineSearch_some_le (encI : ℕ → ℕ) (t : ℕ) :
    ∀ (qs : List ℕ) (last s l2 : ℕ),
      fineSearch encI t qs last = (some s, l2) → 10 * s ≤ 11 * t := by
  intro qs
  induction qs with
  | nil => intro last s l2 hs; simp [fineSearch] at hs
  | cons q qs ih =>
    intro last s l2 hs
    simp only [fineSearch] at hs
    split at hs
    · have h1 : encI q = s := by
        have := congrArg Prod.fst hs
        simpa using this
      subst h1
      simp_all
    · exact ih _ _ _ hs

/-- Tolerances enforced by the two non-fallback JPEG accepts: the outer
accept is within 10% of the target; the fine-grained accept guarantees only
`size <= 1.1 * target`. -/
theorem jpegSweep_accept_le (enc : ℕ → ℕ → ℕ → ℕ → ℕ) (t : ℕ) :
    ∀ (qs : List ℕ) (w h img : ℕ) (tmp : Bool),
      (∀ s, (jpegSweep enc t qs w h img tmp).outcome = .outerAccept s →
        10 * ndist s t < t) ∧
      (∀ s, (jpegSweep enc t qs w h img tmp).outcome = .fineAccept s →
        10 * s ≤ 11 * t) := by
  intro qs
  induction qs with
  | nil =>
    intro w h img tmp
    constructor <;> intro s hs <;> simp [jpegSweep] at hs
  | cons q qs ih =>
    intro w h img tmp
    constructor <;> intro s hs <;> revert hs <;> simp only [jpegSweep]
    · split
      · intro hs
        cases hs
        simp_all
      · split
        · exact fun hs => (ih _ _ _ _).1 s hs
        · split
          · split
            · intro hs; cases hs
            · exact fun hs => (ih _ _ _ _).1 s hs
          · exact fun hs => (ih _ _ _ _).1 s hs
    · split
      · intro hs; cases hs
      · split
        · exact fun hs => (ih _ _ _ _).2 s hs
        · split
          · split
            · rename_i hfine
              intro hs
              cases hs
              exact fineSearch_some_le _ t _ _ _ _ hfine
            · exact fun hs => (ih _ _ _ _).2 s hs
          · exact fun hs => (ih _ _ _ _).2 s hs

/-- The two accepting paths rename the `.tmp` file onto the output path, so
no temp file remains. -/
theorem jpegSweep_accept_tmp (enc : ℕ → ℕ → ℕ → ℕ → ℕ) (t : ℕ) :
    ∀ (qs : List ℕ) (w h img : ℕ) (tmp : Bool),
      ((∃ s, (jpegSweep enc t qs w h img tmp).outcome = .outerAccept s) ∨
       (∃ s, (jpegSweep enc t qs w h img tmp).outcome = .fineAccept s)) →
      (jpegSweep enc t qs w h img tmp).tmpLeft = false := by
  intro qs
  induction qs with
  | nil =>
    intro w h img tmp hs
    rcases hs with ⟨s, hs⟩ | ⟨s, hs⟩ <;> simp [jpegSweep] at hs
  | cons q qs ih =>
    intro w h img tmp
    simp only [jpegSweep]
    split
    · intro _; rfl
    · split
      · exact fun hs => ih _ _ _ _ hs
      · split
        · split
          · intro _; rfl
          · exact fun hs => ih _ _ _ _ hs
        · exact fun hs => ih _ _ _ _ hs

/-- Once a `.tmp` file has been written (flag `true`), it stays on disk on
the fallback path: only the accepting paths rename it away. -/
theorem jpegSweep_fallback_tmp_true (enc : ℕ → ℕ → ℕ → ℕ → ℕ) (t : ℕ) :
    ∀ (qs : List ℕ) (w h img : ℕ),
      (∃ s, (jpegSweep enc t qs w h img true).outcome = .fallback s) →
      (jpegSweep enc t qs w h img true).tmpLeft = true := by
  intro qs
  induction qs with
  | nil => intro w h img _; rfl
  | cons q qs ih =>
    intro w h img
    simp only [jpegSweep]
    split
    · rintro ⟨s, hs⟩; cases hs
    · split
      · exact fun hs => ih _ _ _ hs
      · split
        · split
          · rintro ⟨s, hs⟩; cases hs
          · exact fun hs => ih _ _ _ hs
        · exact fun hs => ih _ _ _ hs

/-- A nonempty sweep that ends on the fallback path leaves the `.tmp` file
behind: the first iteration writes it, and only accepts rename it away. -/
theorem jpegSweep_cons_fallback_tmp (enc : ℕ → ℕ → ℕ → ℕ → ℕ) (t q : ℕ)
    (qs : List ℕ) (w h img : ℕ) (tmp : Bool) :
    (∃ s, (jpegSweep enc t (q :: qs) w h img tmp).outcome = .fallback s) →
    (jpegSweep enc t (q :: qs) w h img tmp).tmpLeft = true := by
  simp only [jpegSweep]
  split
  · rintro ⟨s, hs⟩; cases hs
  · split
    · exact fun hs => jpegSweep_fallback_tmp_true enc t qs _ _ _ hs
    · split
      · split
        · rintro ⟨s, hs⟩; cases hs
        · exact fun hs => jpegSweep_fallback_tmp_true enc t qs _ _ _ hs
      · exact fun hs => jpegSweep_fallback_tmp_true enc t qs _ _ _ hs

/-! ## Structural lemmas about the WEBP sweep -/

/-- The WEBP sweep returns the first quality whose encode is within 15% of
the target, and otherwise the size of the last written encode. -/
theorem webpSweep_eq_find (enc : ℕ → ℕ) (t : ℕ) :
    ∀ (qs : List ℕ) (last : ℕ),
      webpSweep enc t qs last =
        match qs.find? (webpHit enc t) with
        | some q => .accepted q (enc q)
        | none => .fallback ((qs.map enc).getLastD last) := by
  intro qs
  induction qs with
  | nil => intro last; rfl
  | cons q qs ih =>
    intro last
    simp only [webpSweep, List.find?_cons, List.map_cons, List.getLastD_cons]
    by_cases hq : webpHit enc t q
    · have hq2 : 20 * ndist (enc q) t < 3 * t := by
        simpa [webpHit] using hq
      simp [hq, hq2]
    · have hq2 : ¬ 20 * ndist (enc q) t < 3 * t := by
        simpa [webpHit] using hq
      simp [hq, hq2, ih (enc q)]

/-! ## Structural lemmas about the batch orchestrator -/

theorem runBatchAux_append (formats : List Fmt) (gen : ℕ → GenOutcome) :
    ∀ (as bs : List ℕ) (st : RunState),
      runBatchAux formats gen (as ++ bs) st =
        match runBatchAux formats gen as st with
        | .error e => .error e
        | .ok st1 => runBatchAux formats gen bs st1 := by
  intro as
  induction as with
  | nil => intro bs st; rfl
  | cons i as ih =>
    intro bs st
    simp only [List.cons_append, runBatchAux]
    cases stepRequest formats gen st i with
    | none => rfl
    | some st2 => exact ih bs st2

/-- When every index is in range of the format list, the loop never raises
`IndexError`: it attempts every index exactly once, in order. -/
theorem runBatchAux_ok (formats : List Fmt) (gen : ℕ → GenOutcome) :
    ∀ (is : List ℕ) (st : RunState), (∀ i ∈ is, i < formats.length) →
      ∃ st2, runBatchAux formats gen is st = .ok st2 ∧
        st2.attempted = st.attempted ++ is := by
  intro is
  induction is with
  | nil => intro st _; exact ⟨st, rfl, by simp⟩
  | cons i is ih =>
    intro st hlt
    have hi : i < formats.length := hlt i (by simp)
    obtain ⟨f, hf⟩ : ∃ f, formats.get? i = some f := by
      cases hg : formats.get? i with
      | none => exact absurd (List.get?_eq_none.mp hg) (by omega)
      | some f => exact ⟨f, rfl⟩
    simp only [runBatchAux, stepRequest, hf]
    cases hgen : gen i with
    | ok s =>
      obtain ⟨st2, h1, h2⟩ := ih ⟨st.fileSizes ++ [s], st.files ++ [(i, f)], st.attempted ++ [i]⟩
        (fun j hj => hlt j (by simp [hj]))
      exact ⟨st2, h1, by simp [h2]⟩
    | err =>
      obtain ⟨st2, h1, h2⟩ := ih
        ⟨st.fileSizes, st.files.filter (fun p => !(p == (i, f))), st.attempted ++ [i]⟩
        (fun j hj => hlt j (by simp [hj]))
      exact ⟨st2, h1, by simp [h2]⟩

/-- Once a file is absent and its index is never revisited, it stays absent
through the rest of the loop. -/
theorem runBatchAux_not_mem (formats : List Fmt) (gen : ℕ → GenOutcome) :
    ∀ (is : List ℕ) (st st2 : RunState) (i : ℕ) (f : Fmt), i ∉ is →
      (i, f) ∉ st.files → runBatchAux formats gen is st = .ok st2 →
      (i, f) ∉ st2.files := by
  intro is
  induction is with
  | nil =>
    intro st st2 i f _ hmem hrun
    cases hrun
    exact hmem
  | cons j is ih =>
    intro st st2 i f hni hmem hrun
    have hij : i ≠ j := by simp at hni; exact fun hc => hni.1 hc
    have hni2 : i ∉ is := by simp at hni; exact hni.2
    revert hrun
    simp only [runBatchAux, stepRequest]
    cases formats.get? j with
    | none => intro hrun; cases hrun
    | some g =>
      cases gen j with
      | ok s =>
        intro hrun
        refine ih _ _ i f hni2 ?_ hrun
        simp only [RunState.files, List.mem_append]
        rintro (hm | hm)
        · exact hmem hm
        · simp at hm
          exact hij hm.1
      | err =>
        intro hrun
        refine ih _ _ i f hni2 ?_ hrun
        simp only [RunState.files]
        intro hm
        exact hmem (List.mem_of_mem_filter hm)

/-- A request whose generation raises has its output file removed, and the
file never reappears later in the batch. -/
theorem runBatchAux_err_removed (formats : List Fmt) (gen : ℕ → GenOutcome) :
    ∀ (is : List ℕ) (st st2 : RunState), is.Nodup →
      runBatchAux formats gen is st = .ok st2 →
      ∀ i ∈ is, gen i = .err → ∀ f, formats.get? i = some f →
        (i, f) ∉ st2.files := by
  intro is
  induction is with
  | nil => intro st st2 _ _ i hi; simp at hi
  | cons j is ih =>
    intro st st2 hnd hrun i hi hgen f hf
    rcases List.mem_cons.mp hi with rfl | hi2
    · -- the failing index is the head: its file is filtered out, then
      -- preserved absent by the rest of the loop
      revert hrun
      simp only [runBatchAux, stepRequest, hf, hgen]
      intro hrun
      refine runBatchAux_not_mem formats gen is _ st2 i f
        (List.nodup_cons.mp hnd).1 ?_ hrun
      simp only [List.mem_filter]
      rintro ⟨_, hbeq⟩
      simp at hbeq
    · -- the failing index is later: induct on the tail
      revert hrun
      simp only [runBatchAux]
      cases stepRequest formats gen st j with
      | none => intro hrun; cases hrun
      | some st1 =>
        intro hrun
        exact ih st1 st2 (List.nodup_cons.mp hnd).2 hrun i hi2 hgen f hf

/-! ## Lemmas about the sampled size pipeline -/

theorem sum_map_mul (l : List ℚ) (k : ℚ) :
    (l.map (fun s => s * k)).sum = l.sum * k := by
  induction l with
  | nil => simp
  | cons x l ih => simp [ih]; ring

theorem sum_lower_bound (b : ℚ) :
    ∀ l : List ℚ, (∀ x ∈ l, b ≤ x) → b * l.length ≤ l.sum := by
  intro l
  induction l with
  | nil => simp
  | cons x l ih =>
    intro hb
    have h1 : b ≤ x := hb x (by simp)
    have h2 : b * l.length ≤ l.sum := ih (fun y hy => hb y (by simp [hy]))
    simp only [List.length_cons, List.sum_cons]
    push_cast
    nlinarith

theorem clampSize_lower (x : ℚ) : 524288 ≤ clampSize x := by
  unfold clampSize
  have h1 : (524288 : ℚ) ≤ max 524288 x := le_max_left _ _
  have h2 : (524288 : ℚ) ≤ 4194304 := by norm_num
  exact le_min h2 h1

theorem listMeanQ_pos_of_clamped (raw : List ℚ) (hne : raw ≠ []) :
    0 < listMeanQ (raw.map clampSize) := by
  set c := raw.map clampSize with hc
  have hlen : 0 < (c.length : ℚ) := by
    simp only [hc, List.length_map]
    have : 0 < raw.length := List.length_pos.mpr hne
    exact_mod_cast this
  have hsum : (524288 : ℚ) * c.length ≤ c.sum := by
    refine sum_lower_bound 524288 c ?_
    intro x hx
    simp only [hc, List.mem_map] at hx
    obtain ⟨y, _, rfl⟩ := hx
    exact clampSize_lower y
  have hpos : 0 < c.sum := lt_of_lt_of_le (by positivity) hsum
  exact div_pos hpos hlen

/-- The rescale step restores the requested batch mean exactly (over exact
rational arithmetic). -/
theorem rescaleSizes_mean (raw : List ℚ) (avgBytes : ℚ) (hne : raw ≠ []) :
    listMeanQ (rescaleSizes raw avgBytes) = avgBytes := by
  have hm := listMeanQ_pos_of_clamped raw hne
  simp only [listMeanQ, List.length_map] at hm
  have hrawlen : ((raw.length : ℚ)) ≠ 0 :=
    Nat.cast_ne_zero.mpr (List.length_pos.mpr hne).ne'
  have hSne : (raw.map clampSize).sum ≠ 0 := by
    intro h0
    rw [h0] at hm
    simp at hm
  simp only [rescaleSizes, listMeanQ, sum_map_mul, List.length_map]
  field_simp

/-! ## Concrete encoder oracles used for witnesses and counterexamples -/

/-- An encoder that always produces 1 byte: every sweep encode falls below
90% of the target. -/
def encC1 : ℕ → ℕ → ℕ → ℕ → ℕ := fun _ _ _ _ => 1

/-- An encoder producing 115 bytes at quality 95 and 110 bytes below: with
target 100 the first encode is oversized, and the fine-grained search accepts
110 bytes, which is not within 10% of the target. -/
def encC2 : ℕ → ℕ → ℕ → ℕ → ℕ := fun _ _ _ q => if 95 ≤ q then 115 else 110

/-- An encoder hitting the target exactly: the first encode is accepted. -/
def encInTol : ℕ → ℕ → ℕ → ℕ → ℕ := fun _ _ _ _ => 100

/-- A PNG encoder always producing 50 bytes. -/
def encPngLow : ℕ → ℕ → ℕ → ℕ := fun _ _ _ => 50

/-- Every generation request raises (e.g. the output directory is not
writable). -/
def genAllErr : ℕ → GenOutcome := fun _ => .err

/-- Every generation request succeeds with a 1-byte file. -/
def genAllOk : ℕ → GenOutcome := fun _ => .ok 1

/-- A generator failing exactly at index 0. -/
def genErrAt0 : ℕ → GenOutcome := fun i => if i = 0 then .err else .ok 5

set_option maxRecDepth 8000

/-! ## Claims -/

/-- Claim C1, counterexample: with an encoder whose sizes always fall below
90% of the target, the encode after the first below-90% encode is at quality
90 (the next lower sweep level) and at the rescaled dimensions - the sweep is
NOT restarted at quality 95 as the claim states. -/
theorem c1_counterexample :
    (jpegGen encC1 100).trace.get? 0 = some ⟨95, 2000, 2000, 1⟩ ∧
    10 * (1 : ℕ) < 9 * 100 ∧
    (jpegGen encC1 100).trace.get? 1 = some ⟨90, 20000, 20000, 1⟩ ∧
    (90 : ℕ) ≠ 95 := by decide

/-- Claim C1 (amended): whenever an encode of the JPEG quality sweep produces
a size below 90% of the target and the sweep goes on, the dimensions are
scaled by `sqrt (target / actual)` and the sweep continues from the next
lower quality level (current minus 5) at the new dimensions; it is not
restarted from 95. -/
theorem c1_amended (enc : ℕ → ℕ → ℕ → ℕ → ℕ) (t : ℕ) (k : ℕ) (e1 e2 : TraceEntry)
    (h1 : (jpegGen enc t).trace.get? k = some e1)
    (h2 : (jpegGen enc t).trace.get? (k + 1) = some e2)
    (h3 : 10 * e1.size < 9 * t) :
    e1.quality = e2.quality + 5 ∧
      e2.width = scaleDim e1.width t e1.size ∧
      e2.height = scaleDim e1.height t e1.size :=
  jpegSweep_below90_continues enc t sweepQualities 2000 2000 0 false
    (by simp [sweepQualities, List.chain'_cons]) k e1 e2 h1 h2 h3

/-- Witness for C1 (amended) at the concrete run of `encC1`. -/
theorem c1_witness :
    10 * (1 : ℕ) < 9 * 100 ∧
    ((95 : ℕ) = 90 + 5 ∧ (20000 : ℕ) = scaleDim 2000 100 1 ∧
      (20000 : ℕ) = scaleDim 2000 100 1) := by
  refine ⟨by decide, ?_⟩
  exact c1_amended encC1 100 0 ⟨95, 2000, 2000, 1⟩ ⟨90, 20000, 20000, 1⟩
    (by decide) (by decide) (by decide)

/-- Claim C2, counterexample: with target 100 and encoder `encC2`, the result
is accepted on the non-fallback fine-grained path with 110 bytes, and
`|110 - 100| / 100 < 0.10` is false. -/
theorem c2_counterexample :
    (jpegGen encC2 100).outcome = .fineAccept 110 ∧
    ¬ (10 * ndist 110 100 < 100) := by decide

/-- Claim C2 (amended): a size accepted by the outer sweep is within 10% of
the target, but a size accepted on the fine-grained quality path is only
guaranteed to satisfy `size <= 1.1 * target`; it may lie below 90% of the
target (or exactly at 110%). -/
theorem c2_amended (enc : ℕ → ℕ → ℕ → ℕ → ℕ) (t : ℕ) :
    (∀ s, (jpegGen enc t).outcome = .outerAccept s → 10 * ndist s t < t) ∧
    (∀ s, (jpegGen enc t).outcome = .fineAccept s → 10 * s ≤ 11 * t) :=
  jpegSweep_accept_le enc t sweepQualities 2000 2000 0 false

/-- Witness for C2 (amended): an in-tolerance outer accept. -/
theorem c2_witness : 10 * ndist 100 100 < 100 :=
  (c2_amended encInTol 100).1 100 (by decide)

/-- Claim C3: with 100 requests all of which raise, the loop completes (all
100 indices attempted, every exception caught) but the summary block then
raises `ValueError` from `min([])`, so the full summary is NOT printed: the
code crashes on the zero-success case the claim asserts to be safe. -/
theorem c3_bug :
    generate_sample_photos baseFormats genAllErr 100 =
      .summaryError ⟨[], [], List.range 100⟩ := by decide

/-- Claim C4: any shuffle of the format assignment list contains exactly
70 JPEG, 20 PNG and 10 WEBP entries, 100 in total. -/
theorem c4_format_counts (formats : List Fmt) (hp : formats.Perm baseFormats) :
    formats.length = 100 ∧ formats.count .jpeg = 70 ∧
      formats.count .png = 20 ∧ formats.count .webp = 10 := by
  refine ⟨by rw [hp.length_eq]; decide, ?_, ?_, ?_⟩ <;>
    rw [List.Perm.count_eq hp] <;> decide

/-- Witness for C4 at the unshuffled list. -/
theorem c4_witness :
    baseFormats.length = 100 ∧ baseFormats.count .jpeg = 70 ∧
      baseFormats.count .png = 20 ∧ baseFormats.count .webp = 10 :=
  c4_format_counts baseFormats (List.Perm.refl _)

/-- Claim C5: after clamping the sampled sizes into [0.5 MiB, 4 MiB] and
rescaling by `avg_size_bytes / mean(clamped)`, the mean of the targets is
exactly `avg_size_mb * 2 ^ 20` over rational arithmetic. -/
theorem c5_batch_mean (avgMB : ℚ) (raw : List ℚ) (hne : raw ≠ []) :
    listMeanQ (rescaleSizes raw (avgMB * 1048576)) = avgMB * 1048576 :=
  rescaleSizes_mean raw (avgMB * 1048576) hne

/-- Witness for C5 on a one-element sample. -/
theorem c5_witness :
    listMeanQ (rescaleSizes [(2097152 : ℚ)] (2 * 1048576)) = 2 * 1048576 :=
  c5_batch_mean 2 [2097152] (List.cons_ne_nil _ _)

/-- Claim C6: the PNG generator encodes the fixed 1500 x 1500 image once;
exactly when that encode is below the target it rescales by
`sqrt (target / actual)` and re-encodes exactly once more; the returned size
is whatever the last encode produced, with no tolerance check. -/
theorem c6_png (enc : ℕ → ℕ → ℕ → ℕ) (t : ℕ) :
    ((pngGen enc t).encodes.length = 2 ↔ enc 0 1500 1500 < t) ∧
    (pngGen enc t).encodes.length ≤ 2 ∧
    (t ≤ enc 0 1500 1500 → pngGen enc t = ⟨[(1500, 1500)], enc 0 1500 1500⟩) ∧
    (enc 0 1500 1500 < t →
      pngGen enc t =
        ⟨[(1500, 1500),
          (scaleDim 1500 t (enc 0 1500 1500), scaleDim 1500 t (enc 0 1500 1500))],
          enc 1 (scaleDim 1500 t (enc 0 1500 1500))
            (scaleDim 1500 t (enc 0 1500 1500))⟩) := by
  by_cases hc : enc 0 1500 1500 < t <;> simp [pngGen, hc]

/-- Witness for C6: an undersized first encode leads to exactly two encodes,
and the returned size (50 with target 100) misses even the 10% band: no
tolerance is enforced. -/
theorem c6_witness :
    (50 : ℕ) < 100 ∧
      pngGen encPngLow 100 = ⟨[(1500, 1500), (2121, 2121)], 50⟩ ∧
      ¬ (10 * ndist 50 100 < 100) := by
  refine ⟨by decide, ?_, by decide⟩
  have h := (c6_png encPngLow 100).2.2.2 (by decide)
  rw [h]
  decide

/-- Claim C7: the WEBP generator sweeps qualities 95 down to 65 in steps of
5, returns the first encode within 15% relative error of the target, and
otherwise returns the size of the last attempted encode (quality 65)
uncorrected. -/
theorem c7_webp (enc : ℕ → ℕ) (t : ℕ) :
    webpGen enc t =
      match sweepQualities.find? (webpHit enc t) with
      | some q => .accepted q (enc q)
      | none => .fallback (enc 65) := by
  have h := webpSweep_eq_find enc t sweepQualities 0
  simpa [webpGen, sweepQualities] using h

/-- Claim C8: with every index in range, the loop attempts each request
exactly once, in order, exceptions are caught (the loop returns normally),
and a failed request's output file is absent from the final directory. -/
theorem c8_error_handling (formats : List Fmt) (gen : ℕ → GenOutcome) (n : ℕ)
    (hn : n ≤ formats.length) :
    ∃ st, runBatchAux formats gen (List.range n) ⟨[], [], []⟩ = .ok st ∧
      st.attempted = List.range n ∧
      (∀ i, i < n → gen i = .err → ∀ f, formats.get? i = some f →
        (i, f) ∉ st.files) := by
  obtain ⟨st, h1, h2⟩ := runBatchAux_ok formats gen (List.range n) ⟨[], [], []⟩
    (fun i hi => lt_of_lt_of_le (List.mem_range.mp hi) hn)
  refine ⟨st, h1, by simpa using h2, ?_⟩
  intro i hi hgen f hf
  exact runBatchAux_err_removed formats gen (List.range n) _ st
    (List.nodup_range n) h1 i (List.mem_range.mpr hi) hgen f hf

/-- Witness for C8: a two-request batch whose first request fails. -/
theorem c8_witness :
    2 ≤ baseFormats.length ∧
      ∃ st, runBatchAux baseFormats genErrAt0 (List.range 2) ⟨[], [], []⟩ = .ok st ∧
        st.attempted = List.range 2 ∧
        (∀ i, i < 2 → genErrAt0 i = .err → ∀ f, baseFormats.get? i = some f →
          (i, f) ∉ st.files) :=
  ⟨by decide, c8_error_handling baseFormats genErrAt0 2 (by decide)⟩

/-- Claim C9, counterexample: a run that exhausts the sweep takes the
fallback path and leaves the `.tmp` file from the last sweep encode on disk,
contradicting the claim that no `.tmp` file remains on any normal completion
path including the fallback-accept path. -/
theorem c9_counterexample :
    (jpegGen encC1 100).outcome = .fallback 1 ∧
    (jpegGen encC1 100).tmpLeft = true := by decide

/-- Claim C9 (amended): the two tolerance-accept paths rename the `.tmp`
file onto the output path, leaving no temp file; when the fallback path is
taken, the `.tmp` file written by the last sweep encode remains on disk. -/
theorem c9_amended (enc : ℕ → ℕ → ℕ → ℕ → ℕ) (t : ℕ) :
    (((∃ s, (jpegGen enc t).outcome = .outerAccept s) ∨
      (∃ s, (jpegGen enc t).outcome = .fineAccept s)) →
      (jpegGen enc t).tmpLeft = false) ∧
    ((∃ s, (jpegGen enc t).outcome = .fallback s) →
      (jpegGen enc t).tmpLeft = true) :=
  ⟨jpegSweep_accept_tmp enc t sweepQualities 2000 2000 0 false,
   jpegSweep_cons_fallback_tmp enc t 95 [90, 85, 80, 75, 70, 65] 2000 2000 0 false⟩

/-- Witness for C9 (amended): one accepting run and one fallback run. -/
theorem c9_witness :
    (jpegGen encInTol 100).tmpLeft = false ∧
    (jpegGen encC1 100).tmpLeft = true := by
  constructor
  · exact (c9_amended encInTol 100).1 (Or.inl ⟨100, by decide⟩)
  · exact (c9_amended encC1 100).2 ⟨1, by decide⟩

/-- Claim C10: the format list always has 100 entries, so any batch of more
than 100 photos crashes with an uncaught `IndexError` at request index 100,
after exactly the first 100 requests were attempted and before any summary
is printed. -/
theorem c10_index_error (formats : List Fmt) (gen : ℕ → GenOutcome) (n : ℕ)
    (hp : formats.Perm baseFormats) (hn : 100 < n) :
    ∃ st, generate_sample_photos formats gen n = .indexError st ∧
      st.attempted = List.range 100 := by
  have hlen : formats.length = 100 := by rw [hp.length_eq]; decide
  obtain ⟨st1, h1, h2⟩ := runBatchAux_ok formats gen (List.range 100) ⟨[], [], []⟩
    (fun i hi => by rw [hlen]; exact List.mem_range.mp hi)
  obtain ⟨m, hm⟩ : ∃ m, n - 100 = m + 1 := ⟨n - 101, by omega⟩
  have hsplit : List.range n = List.range 100 ++ (List.range (n - 100)).map (100 + ·) := by
    rw [← List.range_add]
    congr 1
    omega
  have hrest : ∃ rest, (List.range (n - 100)).map (100 + ·) = 100 :: rest := by
    rw [hm, List.range_succ_eq_map, List.map_cons]
    exact ⟨(List.range m).map ((fun x => 100 + x) ∘ Nat.succ), by norm_num⟩
  obtain ⟨rest, hrest⟩ := hrest
  have hnone : formats.get? 100 = none := List.get?_eq_none.mpr (by omega)
  refine ⟨st1, ?_, by simpa using h2⟩
  unfold generate_sample_photos
  rw [hsplit, hrest, runBatchAux_append, h1]
  simp only [runBatchAux, stepRequest, hnone]

/-- Witness for C10 at a 101-photo batch. -/
theorem c10_witness :
    baseFormats.Perm baseFormats ∧ 100 < 101 ∧
      ∃ st, generate_sample_photos baseFormats genAllOk 101 = .indexError st ∧
        st.attempted = List.range 100 :=
  ⟨List.Perm.refl _, by decide,
    c10_index_error baseFormats genAllOk 101 (List.Perm.refl _) (by decide)⟩

end RapidPhoto
